import Mathlib

/-!
Verification of the Binance latency-experiment core (shared statistics
engine, Frankfurt receiver loss detection, Tokyo forwarder sequencing,
and the JSON wire round-trip) against its natural-language specification.

Modelling conventions:
* Rust `f64` latency arithmetic is embedded as exact rationals `ℚ`; the
  single square root (`variance.sqrt()`) is modelled as `Real.sqrt` of the
  exactly computed variance, kept as a derived function so that every
  record field stays computable.
* Rust `i64`/`u64` timestamps and ids are embedded as `ℤ`/`ℕ`.
* The receiver's `HashSet<u64>` of sequence ids is a `Finset ℕ`.
* Vectors are `List`s; `Vec::sort_by` on latencies is `List.insertionSort`.
* Fallible indexing `v[i]` is `List.getD i 0`; in-bounds-ness is proved
  separately where the spec claims it.
-/

/-- Latency measurement for a single event (src/shared/src/lib.rs,
`LatencyMeasurement`). Timestamps are epoch integers, latencies exact
rationals standing for the `f64` values. -/
structure LatencyMeasurement where
  sequence_id : ℕ
  binance_event_time : ℤ
  tokyo_receive_time : Option ℤ
  frankfurt_receive_time : ℤ
  end_to_end_latency_ms : ℚ
  backbone_latency_ms : Option ℚ
  deriving Repr, DecidableEq

/-- `LatencyMeasurement::new_baseline`: baseline-mode constructor
(direct Binance → Frankfurt). -/
def LatencyMeasurement.new_baseline (sequence_id : ℕ) (binance_event_time : ℤ)
    (frankfurt_receive_time : ℤ) : LatencyMeasurement :=
  let end_to_end_latency_ms : ℚ :=
    (frankfurt_receive_time : ℚ) / 1000000 - (binance_event_time : ℚ)
  { sequence_id := sequence_id
    binance_event_time := binance_event_time
    tokyo_receive_time := none
    frankfurt_receive_time := frankfurt_receive_time
    end_to_end_latency_ms := end_to_end_latency_ms
    backbone_latency_ms := none }

/-- `LatencyMeasurement::new_aws_backbone`: relay-mode constructor
(Binance → Tokyo → Frankfurt). -/
def LatencyMeasurement.new_aws_backbone (sequence_id : ℕ) (binance_event_time : ℤ)
    (tokyo_receive_time : ℤ) (frankfurt_receive_time : ℤ) : LatencyMeasurement :=
  let end_to_end_latency_ms : ℚ :=
    (frankfurt_receive_time : ℚ) / 1000000 - (binance_event_time : ℚ)
  let backbone_latency_ms : ℚ :=
    ((frankfurt_receive_time - tokyo_receive_time : ℤ) : ℚ) / 1000000
  { sequence_id := sequence_id
    binance_event_time := binance_event_time
    tokyo_receive_time := some tokyo_receive_time
    frankfurt_receive_time := frankfurt_receive_time
    end_to_end_latency_ms := end_to_end_latency_ms
    backbone_latency_ms := some backbone_latency_ms }

/-- Results of a latency experiment (src/shared/src/lib.rs,
`ExperimentResults`). The Rust field `jitter_stddev_ms = variance.sqrt()`
is represented by storing the exactly computed variance
(`jitter_variance_ms`); the square root itself is the derived function
`ExperimentResults.jitter_stddev_ms` below. -/
structure ExperimentResults where
  setup_type : String
  sample_count : ℕ
  events_lost : ℕ
  avg_latency_ms : ℚ
  median_latency_ms : ℚ
  p95_latency_ms : ℚ
  p99_latency_ms : ℚ
  min_latency_ms : ℚ
  max_latency_ms : ℚ
  jitter_variance_ms : ℚ
  backbone_avg_latency_ms : Option ℚ
  backbone_median_latency_ms : Option ℚ
  deriving Repr, DecidableEq

/-- Index `floor(p * (len-1))` cast to a machine index, as computed by
`ExperimentResults::percentile` (`index.floor() as usize`). -/
def percentileLowerIdx (len : ℕ) (p : ℚ) : ℕ :=
  (⌊p * ((len : ℚ) - 1)⌋).toNat

/-- Index `ceil(p * (len-1))` cast to a machine index, as computed by
`ExperimentResults::percentile` (`index.ceil() as usize`). -/
def percentileUpperIdx (len : ℕ) (p : ℚ) : ℕ :=
  (⌈p * ((len : ℚ) - 1)⌉).toNat

/-- `ExperimentResults::percentile`: linear-interpolation percentile on
sorted data (src/shared/src/lib.rs lines 244-260). Out-of-range indexing
is modelled by `getD _ 0`; boundedness of the indices is proved
separately. -/
def percentile (sorted_data : List ℚ) (p : ℚ) : ℚ :=
  let len := sorted_data.length
  if len = 0 then 0
  else if len = 1 then sorted_data.getD 0 0
  else
    let index : ℚ := p * ((len : ℚ) - 1)
    let lower : ℕ := percentileLowerIdx len p
    let upper : ℕ := percentileUpperIdx len p
    let weight : ℚ := index - (lower : ℚ)
    sorted_data.getD lower 0 * (1 - weight) + sorted_data.getD upper 0 * weight

/-- `ExperimentResults::from_measurements`: compute the final aggregate
statistics (src/shared/src/lib.rs lines 160-242). -/
def ExperimentResults.from_measurements (setup_type : String)
    (measurements : List LatencyMeasurement) (events_lost : ℕ) : ExperimentResults :=
  let sample_count := measurements.length
  if sample_count = 0 then
    { setup_type := setup_type
      sample_count := 0
      events_lost := events_lost
      avg_latency_ms := 0
      median_latency_ms := 0
      p95_latency_ms := 0
      p99_latency_ms := 0
      min_latency_ms := 0
      max_latency_ms := 0
      jitter_variance_ms := 0
      backbone_avg_latency_ms := none
      backbone_median_latency_ms := none }
  else
    let latencies : List ℚ :=
      List.insertionSort (· ≤ ·) (measurements.map LatencyMeasurement.end_to_end_latency_ms)
    let avg_latency_ms := latencies.sum / (sample_count : ℚ)
    let median_latency_ms := percentile latencies (50 / 100)
    let p95_latency_ms := percentile latencies (95 / 100)
    let p99_latency_ms := percentile latencies (99 / 100)
    let min_latency_ms := latencies.getD 0 0
    let max_latency_ms := latencies.getD (sample_count - 1) 0
    let variance :=
      (latencies.map fun l => (l - avg_latency_ms) * (l - avg_latency_ms)).sum
        / (sample_count : ℚ)
    let backbone_latencies : List ℚ :=
      measurements.filterMap LatencyMeasurement.backbone_latency_ms
    let backbone_stats : Option ℚ × Option ℚ :=
      if backbone_latencies ≠ [] then
        let sorted_backbone := List.insertionSort (· ≤ ·) backbone_latencies
        let avg := sorted_backbone.sum / (sorted_backbone.length : ℚ)
        let median := percentile sorted_backbone (50 / 100)
        (some avg, some median)
      else
        (none, none)
    { setup_type := setup_type
      sample_count := sample_count
      events_lost := events_lost
      avg_latency_ms := avg_latency_ms
      median_latency_ms := median_latency_ms
      p95_latency_ms := p95_latency_ms
      p99_latency_ms := p99_latency_ms
      min_latency_ms := min_latency_ms
      max_latency_ms := max_latency_ms
      jitter_variance_ms := variance
      backbone_avg_latency_ms := backbone_stats.1
      backbone_median_latency_ms := backbone_stats.2 }

/-- The reported jitter field: `variance.sqrt()` in the Rust code,
modelled as the real square root of the exactly computed variance. -/
noncomputable def ExperimentResults.jitter_stddev_ms (r : ExperimentResults) : ℝ :=
  Real.sqrt (r.jitter_variance_ms : ℝ)

/-- Loss detection of `run_aws_backbone_mode`
(src/frankfurt-receiver/src/main.rs lines 354-362): over the `HashSet`
of received sequence ids, `(max − min + 1) − |S|` when non-empty, else 0. -/
def eventsLostOf (received_sequence_ids : Finset ℕ) : ℕ :=
  if h : received_sequence_ids.Nonempty then
    let min_seq := received_sequence_ids.min' h
    let max_seq := received_sequence_ids.max' h
    let expected_count := max_seq - min_seq + 1
    let actual_count := received_sequence_ids.card
    expected_count - actual_count
  else 0

/-- Binance book ticker event (src/shared/src/lib.rs,
`BinanceBookTickerEvent`): the fields of a successfully parsed upstream
message. -/
structure BinanceBookTickerEvent where
  event_type : String
  update_id : ℤ
  event_time : ℤ
  transaction_time : ℤ
  symbol : String
  best_bid_price : String
  best_bid_qty : String
  best_ask_price : String
  best_ask_qty : String
  deriving Repr, DecidableEq

/-- Event forwarded from Tokyo to Frankfurt (src/shared/src/lib.rs,
`ForwardedEvent`). -/
structure ForwardedEvent where
  sequence_id : ℕ
  tokyo_receive_timestamp : ℤ
  binance_event_time : ℤ
  event_data : String
  deriving Repr, DecidableEq

/-- One inbound unit of the forwarder's WebSocket loop
(src/tokyo-forwarder/src/main.rs lines 141-199): a text frame carries the
raw payload plus the timestamp captured on receipt; close frames, other
frame kinds (binary/ping/pong) and transport errors carry no payload. -/
inductive UpstreamMsg where
  | text (payload : String) (tokyo_receive_timestamp : ℤ)
  | close
  | other
  | wsError
  deriving Repr, DecidableEq

/-- One iteration of `run_forwarder`'s message loop, abstracted over the
JSON parse of the upstream payload (`serde_json::from_str`): a text frame
whose payload parses consumes one sequence id (`fetch_add(1)`) and emits
the envelope built from the pre-increment counter value; every other case
leaves the counter untouched and emits nothing. -/
def stepForwarder (parse : String → Option BinanceBookTickerEvent)
    (sequence_counter : ℕ) : UpstreamMsg → ℕ × Option ForwardedEvent
  | .text payload ts =>
    match parse payload with
    | some event =>
      (sequence_counter + 1,
        some { sequence_id := sequence_counter
               tokyo_receive_timestamp := ts
               binance_event_time := event.event_time
               event_data := payload })
    | none => (sequence_counter, none)
  | .close => (sequence_counter, none)
  | .other => (sequence_counter, none)
  | .wsError => (sequence_counter, none)

/-- `run_forwarder`'s loop over a finite trace of inbound units, threading
the shared sequence counter and collecting the envelopes sent to
Frankfurt in order. -/
def runForwarder (parse : String → Option BinanceBookTickerEvent)
    (sequence_counter : ℕ) : List UpstreamMsg → ℕ × List ForwardedEvent
  | [] => (sequence_counter, [])
  | msg :: rest =>
    let step := stepForwarder parse sequence_counter msg
    let tail := runForwarder parse step.1 rest
    (tail.1, step.2.toList ++ tail.2)

/-- Whether an inbound unit is a text frame whose payload parses as a
`BinanceBookTickerEvent` — exactly the units that consume a sequence id. -/
def isParsedText (parse : String → Option BinanceBookTickerEvent) : UpstreamMsg → Bool
  | .text payload _ => (parse payload).isSome
  | _ => false

/-- ASCII decimal digit for `n < 10`. -/
def digitChar (n : ℕ) : Char := Char.ofNat (48 + n)

/-- Decimal digits of a natural number, most significant first, as
`serde_json` prints a `u64`. -/
def natDigitsAux : ℕ → List Char → List Char
  | n, acc =>
    if n < 10 then digitChar n :: acc
    else natDigitsAux (n / 10) (digitChar (n % 10) :: acc)
termination_by n _ => n
decreasing_by exact Nat.div_lt_self (by omega) (by omega)

/-- Decimal representation of a natural number. -/
def natDigits (n : ℕ) : List Char := natDigitsAux n []

/-- Decimal representation of an integer, as `serde_json` prints an `i64`. -/
def intChars (i : ℤ) : List Char :=
  if i < 0 then '-' :: natDigits (-i).toNat else natDigits i.toNat

/-- ASCII decimal digit test. -/
def isDigitChar (c : Char) : Bool := 48 ≤ c.toNat && c.toNat ≤ 57

/-- Split off the longest leading run of decimal digits. -/
def takeDigits : List Char → List Char × List Char
  | [] => ([], [])
  | c :: rest =>
    if isDigitChar c then
      let t := takeDigits rest
      (c :: t.1, t.2)
    else ([], c :: rest)

/-- Value of a list of decimal digit characters. -/
def digitsVal (l : List Char) : ℕ := l.foldl (fun a c => 10 * a + (c.toNat - 48)) 0

/-- Read an unsigned decimal number off the front of the input. -/
def readNat (s : List Char) : Option (ℕ × List Char) :=
  if (takeDigits s).1 = [] then none
  else some (digitsVal (takeDigits s).1, (takeDigits s).2)

/-- Read an optionally-negated decimal number off the front of the input. -/
def readInt (s : List Char) : Option (ℤ × List Char) :=
  if s.head? = some '-' then
    (readNat s.tail).map fun p => (-(p.1 : ℤ), p.2)
  else
    (readNat s).map fun p => ((p.1 : ℤ), p.2)

/-- Lowercase hexadecimal digit for `n < 16`, matching `serde_json`'s
`\u00XX` control-character escapes. -/
def hexDigitChar (n : ℕ) : Char :=
  if n < 10 then Char.ofNat (48 + n) else Char.ofNat (87 + n)

/-- Value of a hexadecimal digit character (either case), `none` otherwise. -/
def hexVal (c : Char) : Option ℕ :=
  if 48 ≤ c.toNat ∧ c.toNat ≤ 57 then some (c.toNat - 48)
  else if 97 ≤ c.toNat ∧ c.toNat ≤ 102 then some (c.toNat - 87)
  else if 65 ≤ c.toNat ∧ c.toNat ≤ 70 then some (c.toNat - 55)
  else none

/-- `serde_json`'s escaping of one character inside a JSON string:
quote and backslash get two-character escapes, the five named control
characters get their short escapes, every other control character below
0x20 becomes `\u00XX` with lowercase hex, and anything else is emitted
verbatim. -/
def escapeChar (c : Char) : List Char :=
  if c = '"' then ['\\', '"']
  else if c = '\\' then ['\\', '\\']
  else if c = '\x08' then ['\\', 'b']
  else if c = '\t' then ['\\', 't']
  else if c = '\n' then ['\\', 'n']
  else if c = '\x0c' then ['\\', 'f']
  else if c = '\r' then ['\\', 'r']
  else if c.toNat < 32 then
    ['\\', 'u', '0', '0', hexDigitChar (c.toNat / 16), hexDigitChar (c.toNat % 16)]
  else [c]

/-- `serde_json`'s escaping of a whole string body (without the enclosing
quotes). -/
def escapeString (s : List Char) : List Char := (s.map escapeChar).flatten

/-- Prepend a character to the string component of a partial parse. -/
def consFst (c : Char) (o : Option (List Char × List Char)) :
    Option (List Char × List Char) :=
  o.map fun p => (c :: p.1, p.2)

/-- Read a JSON string body up to and including the closing quote,
decoding the standard escapes; returns the decoded characters and the
rest of the input. -/
def readStrBody : List Char → Option (List Char × List Char)
  | [] => none
  | c :: rest =>
    if c = '"' then some ([], rest)
    else if c = '\\' then
      match rest with
      | [] => none
      | e :: r =>
        if e = '"' then consFst '"' (readStrBody r)
        else if e = '\\' then consFst '\\' (readStrBody r)
        else if e = '/' then consFst '/' (readStrBody r)
        else if e = 'b' then consFst '\x08' (readStrBody r)
        else if e = 't' then consFst '\t' (readStrBody r)
        else if e = 'n' then consFst '\n' (readStrBody r)
        else if e = 'f' then consFst '\x0c' (readStrBody r)
        else if e = 'r' then consFst '\r' (readStrBody r)
        else if e = 'u' then
          match r with
          | h1 :: h2 :: h3 :: h4 :: r2 =>
            match hexVal h1, hexVal h2, hexVal h3, hexVal h4 with
            | some a, some b, some x, some y =>
              consFst (Char.ofNat (4096 * a + 256 * b + 16 * x + y)) (readStrBody r2)
            | _, _, _, _ => none
          | _ => none
        else none
    else consFst c (readStrBody rest)
termination_by l => l.length
decreasing_by all_goals simp_wf <;> omega

/-- Consume an expected literal prefix from the input. -/
def expectLit : List Char → List Char → Option (List Char)
  | [], s => some s
  | _ :: _, [] => none
  | c :: l, d :: s => if c = d then expectLit l s else none

/-- JSON insignificant whitespace. -/
def isJsonWs (c : Char) : Bool := c = ' ' || c = '\t' || c = '\n' || c = '\r'

/-- The JSON text `serde_json::to_string` produces for a `ForwardedEvent`
(src/tokyo-forwarder/src/main.rs line 165): an object with the four
fields in declaration order, integers in decimal, and the payload as an
escaped JSON string. -/
def ForwardedEvent.toJsonChars (e : ForwardedEvent) : List Char :=
  "\x7b\"sequence_id\":".data ++ natDigits e.sequence_id
    ++ ",\"tokyo_receive_timestamp\":".data ++ intChars e.tokyo_receive_timestamp
    ++ ",\"binance_event_time\":".data ++ intChars e.binance_event_time
    ++ ",\"event_data\":\"".data ++ escapeString e.event_data.data
    ++ "\"\x7d".data

/-- The wire form sent to Frankfurt: the JSON text followed by the
newline that `format!("{}\n", json)` appends
(src/tokyo-forwarder/src/main.rs line 167). -/
def ForwardedEvent.toWireChars (e : ForwardedEvent) : List Char :=
  e.toJsonChars ++ ['\n']

/-- `serde_json::from_str::<ForwardedEvent>` as the receiver applies it
(src/frankfurt-receiver/src/main.rs line 270), modelled on the canonical
wire form: surrounding insignificant whitespace is skipped (as
`from_str` does), the object is read field by field in the emitted
order, and the payload string is unescaped. Any deviation yields
`none`, matching the receiver's parse-failure branch. -/
def ForwardedEvent.fromJsonChars? (input : List Char) : Option ForwardedEvent := do
  let s0 := input.dropWhile isJsonWs
  let s1 ← expectLit "\x7b\"sequence_id\":".data s0
  let (seq, s2) ← readNat s1
  let s3 ← expectLit ",\"tokyo_receive_timestamp\":".data s2
  let (tok, s4) ← readInt s3
  let s5 ← expectLit ",\"binance_event_time\":".data s4
  let (bin, s6) ← readInt s5
  let s7 ← expectLit ",\"event_data\":\"".data s6
  let (payload, s8) ← readStrBody s7
  let s9 ← expectLit "\x7d".data s8
  if s9.dropWhile isJsonWs = [] then
    pure { sequence_id := seq
           tokyo_receive_timestamp := tok
           binance_event_time := bin
           event_data := String.mk payload }
  else none

/-- The spec's percentile formula, written exactly as §4.2 step 3 states
it: index = `p*(n−1)`; result = linear interpolation between the floor
and ceiling indices weighted by the fractional part. Used as the
reference side of the refinement proof for `percentile`. -/
def percentileSpecFormula (sorted_data : List ℚ) (p : ℚ) : ℚ :=
  let index : ℚ := p * ((sorted_data.length : ℚ) - 1)
  sorted_data.getD (⌊index⌋).toNat 0 * (1 - Int.fract index)
    + sorted_data.getD (⌈index⌉).toNat 0 * Int.fract index

/-- Arithmetic mean of a list of values. -/
def meanOf (l : List ℚ) : ℚ := l.sum / (l.length : ℚ)

/-- The spec's population variance (§4.2 step 4): sum of squared
deviations around the arithmetic mean, divided by `n` (not `n−1`). -/
def popVariance (l : List ℚ) : ℚ :=
  (l.map fun x => (x - meanOf l) ^ 2).sum / (l.length : ℚ)

/-- The spec's population standard deviation: square root of
`popVariance`. -/
noncomputable def popStddev (l : List ℚ) : ℝ :=
  Real.sqrt ((popVariance l : ℚ) : ℝ)

/-- C1: in relay (aws-backbone) mode, the reported `events_lost` equals
`(max(S) − min(S) + 1) − |S|` for a non-empty observed id set `S` and 0
for an empty one; on `S = {0,1,2,5,6}` the loss is 2, and the loss is 0
on every contiguous id set `Icc a b`, including singletons. -/
theorem eventsLost_matches_spec :
    (∀ (S : Finset ℕ) (h : S.Nonempty),
        eventsLostOf S = (S.max' h - S.min' h + 1) - S.card) ∧
    eventsLostOf (∅ : Finset ℕ) = 0 ∧
    eventsLostOf ({0, 1, 2, 5, 6} : Finset ℕ) = 2 ∧
    (∀ a b : ℕ, a ≤ b → eventsLostOf (Finset.Icc a b) = 0) := by
  refine ⟨?_, rfl, by decide, ?_⟩
  · intro S h
    simp only [eventsLostOf, dif_pos h]
  · intro a b hab
    have hne : (Finset.Icc a b).Nonempty := Finset.nonempty_Icc.mpr hab
    have hmin : (Finset.Icc a b).min' hne = a := by
      apply le_antisymm
      · exact Finset.min'_le _ _ (Finset.mem_Icc.mpr ⟨le_rfl, hab⟩)
      · exact Finset.le_min' _ _ _ fun x hx => (Finset.mem_Icc.mp hx).1
    have hmax : (Finset.Icc a b).max' hne = b := by
      apply le_antisymm
      · exact Finset.max'_le _ _ _ fun x hx => (Finset.mem_Icc.mp hx).2
      · exact Finset.le_max' _ _ (Finset.mem_Icc.mpr ⟨hab, le_rfl⟩)
    simp only [eventsLostOf, dif_pos hne, hmin, hmax, Nat.card_Icc]
    omega

/-- Witness for `eventsLost_matches_spec` at the concrete sets `{3, 7}`
and `Icc 2 4`. -/
theorem eventsLost_matches_spec_witness :
    eventsLostOf ({3, 7} : Finset ℕ) =
        (({3, 7} : Finset ℕ).max' ⟨3, by decide⟩ - ({3, 7} : Finset ℕ).min' ⟨3, by decide⟩ + 1)
          - ({3, 7} : Finset ℕ).card ∧
    eventsLostOf (Finset.Icc 2 4) = 0 :=
  ⟨eventsLost_matches_spec.1 {3, 7} ⟨3, by decide⟩,
   eventsLost_matches_spec.2.2.2 2 4 (by omega)⟩

/-- C10: the unsigned subtraction `(max − min + 1) − |S|` in the loss
computation never underflows: a set of distinct ids inside
`[min(S), max(S)]` has cardinality at most `max(S) − min(S) + 1`, and the
computed loss is the exact (non-negative) difference. -/
theorem eventsLost_subtraction_safe :
    ∀ (S : Finset ℕ) (h : S.Nonempty),
      S.card ≤ S.max' h - S.min' h + 1 ∧
      eventsLostOf S + S.card = S.max' h - S.min' h + 1 := by
  intro S h
  have hsub : S ⊆ Finset.Icc (S.min' h) (S.max' h) := fun x hx =>
    Finset.mem_Icc.mpr ⟨Finset.min'_le S x hx, Finset.le_max' S x hx⟩
  have hcard := Finset.card_le_card hsub
  rw [Nat.card_Icc] at hcard
  have hminmax : S.min' h ≤ S.max' h := S.min'_le _ (S.max'_mem h)
  refine ⟨by omega, ?_⟩
  simp only [eventsLostOf, dif_pos h]
  omega

/-- Witness for `eventsLost_subtraction_safe` at the concrete set `{0, 2}`. -/
theorem eventsLost_subtraction_safe_witness :
    ({0, 2} : Finset ℕ).card ≤
      ({0, 2} : Finset ℕ).max' ⟨0, by decide⟩ - ({0, 2} : Finset ℕ).min' ⟨0, by decide⟩ + 1 :=
  (eventsLost_subtraction_safe {0, 2} ⟨0, by decide⟩).1

/-- C4: `from_measurements` on an empty collection returns the all-zero
summary (every latency statistic zero, jitter zero, backbone fields
absent) with `events_lost` passed through unchanged; being a total
function, it raises no error. -/
theorem from_measurements_empty_zeroes :
    ∀ (setup_type : String) (events_lost : ℕ),
      ExperimentResults.from_measurements setup_type [] events_lost =
        { setup_type := setup_type
          sample_count := 0
          events_lost := events_lost
          avg_latency_ms := 0
          median_latency_ms := 0
          p95_latency_ms := 0
          p99_latency_ms := 0
          min_latency_ms := 0
          max_latency_ms := 0
          jitter_variance_ms := 0
          backbone_avg_latency_ms := none
          backbone_median_latency_ms := none } ∧
      (ExperimentResults.from_measurements setup_type [] events_lost).jitter_stddev_ms = 0 := by
  intro s k
  refine ⟨rfl, ?_⟩
  simp [ExperimentResults.from_measurements, ExperimentResults.jitter_stddev_ms]

/-- C5: for both constructors, `end_to_end_latency_ms` is
`frankfurt_receive_time/1e6 − binance_event_time`; the backbone latency
is `(frankfurt_receive_time − tokyo_receive_time)/1e6` and is present
exactly when the mid-path timestamp is present (both present in relay
mode, both absent in baseline mode). -/
theorem measurement_constructor_latencies :
    ∀ (sid : ℕ) (bt t f : ℤ),
      (LatencyMeasurement.new_baseline sid bt f).end_to_end_latency_ms
          = (f : ℚ) / 1000000 - (bt : ℚ) ∧
      (LatencyMeasurement.new_baseline sid bt f).tokyo_receive_time = none ∧
      (LatencyMeasurement.new_baseline sid bt f).backbone_latency_ms = none ∧
      (LatencyMeasurement.new_aws_backbone sid bt t f).end_to_end_latency_ms
          = (f : ℚ) / 1000000 - (bt : ℚ) ∧
      (LatencyMeasurement.new_aws_backbone sid bt t f).tokyo_receive_time = some t ∧
      (LatencyMeasurement.new_aws_backbone sid bt t f).backbone_latency_ms
          = some (((f - t : ℤ) : ℚ) / 1000000) :=
  fun _ _ _ _ => ⟨rfl, rfl, rfl, rfl, rfl, rfl⟩

/-- Evaluation of `percentile` in the general (length ≥ 2) branch. -/
theorem percentile_eval (data : List ℚ) (p : ℚ) (h0 : data.length ≠ 0) (h1 : data.length ≠ 1) :
    percentile data p =
      data.getD (percentileLowerIdx data.length p) 0
          * (1 - (p * ((data.length : ℚ) - 1) - (percentileLowerIdx data.length p : ℚ)))
        + data.getD (percentileUpperIdx data.length p) 0
          * (p * ((data.length : ℚ) - 1) - (percentileLowerIdx data.length p : ℚ)) := by
  simp only [percentile]
  rw [if_neg h0, if_neg h1]

/-- C2: on every sorted non-empty array and percentile `p ∈ [0,1]`,
`percentile` returns the linear interpolation between the elements at the
floor and ceiling of index `p*(n−1)` weighted by the fractional part of
that index (the spec formula `percentileSpecFormula`); for `n = 1` it
returns the single element for any such `p`. -/
theorem percentile_matches_interpolation_spec :
    ∀ (sorted_data : List ℚ) (p : ℚ), sorted_data ≠ [] →
      List.Sorted (· ≤ ·) sorted_data → 0 ≤ p → p ≤ 1 →
      percentile sorted_data p = percentileSpecFormula sorted_data p ∧
      (sorted_data.length = 1 → percentile sorted_data p = sorted_data.getD 0 0) := by
  intro data p hne _hsorted hp0 hp1
  have h0 : data.length ≠ 0 := fun h => hne (List.length_eq_zero.mp h)
  by_cases h1 : data.length = 1
  · refine ⟨?_, fun _ => by simp only [percentile]; rw [if_neg h0, if_pos h1]⟩
    simp only [percentile, percentileSpecFormula, h1]
    norm_num
  · have hlen1 : (1 : ℚ) ≤ (data.length : ℚ) := by
      exact_mod_cast Nat.one_le_iff_ne_zero.mpr h0
    have hidx : (0 : ℚ) ≤ p * ((data.length : ℚ) - 1) :=
      mul_nonneg hp0 (by linarith)
    have hfl : ((⌊p * ((data.length : ℚ) - 1)⌋.toNat : ℕ) : ℚ)
        = ((⌊p * ((data.length : ℚ) - 1)⌋ : ℤ) : ℚ) := by
      exact_mod_cast congrArg Int.cast (Int.toNat_of_nonneg (Int.floor_nonneg.mpr hidx))
    refine ⟨?_, fun h => absurd h h1⟩
    rw [percentile_eval data p h0 h1]
    simp only [percentileSpecFormula, percentileLowerIdx, percentileUpperIdx, Int.fract]
    rw [hfl]

/-- Witness for `percentile_matches_interpolation_spec` on the singleton
`[5]` at `p = 3/4`. -/
theorem percentile_matches_interpolation_spec_witness :
    percentile [(5 : ℚ)] (3 / 4) = percentileSpecFormula [(5 : ℚ)] (3 / 4) ∧
    ([(5 : ℚ)].length = 1 → percentile [(5 : ℚ)] (3 / 4) = [(5 : ℚ)].getD 0 0) :=
  percentile_matches_interpolation_spec [5] (3 / 4) (List.cons_ne_nil _ _)
    (by decide) (by norm_num) (by norm_num)

/-- C9: `percentile` is total — for `p ∈ [0,1]` and a non-empty array
the floor and ceiling indices are both at most `n − 1`, so the accesses
are in bounds; on an empty array it returns 0 rather than failing. -/
theorem percentile_indices_in_bounds :
    ∀ (sorted_data : List ℚ) (p : ℚ), 0 ≤ p → p ≤ 1 →
      (sorted_data ≠ [] →
        percentileLowerIdx sorted_data.length p ≤ sorted_data.length - 1 ∧
        percentileUpperIdx sorted_data.length p ≤ sorted_data.length - 1) ∧
      percentile [] p = 0 := by
  intro data p hp0 hp1
  refine ⟨?_, rfl⟩
  intro hne
  have h0 : data.length ≠ 0 := fun h => hne (List.length_eq_zero.mp h)
  have hlen1 : (1 : ℚ) ≤ (data.length : ℚ) := by
    exact_mod_cast Nat.one_le_iff_ne_zero.mpr h0
  have hle : p * ((data.length : ℚ) - 1) ≤ (data.length : ℚ) - 1 := by nlinarith
  have hceil : ⌈p * ((data.length : ℚ) - 1)⌉ ≤ (data.length : ℤ) - 1 := by
    rw [Int.ceil_le]
    push_cast
    exact hle
  have hfloor : ⌊p * ((data.length : ℚ) - 1)⌋ ≤ (data.length : ℤ) - 1 :=
    le_trans (Int.floor_le_ceil _) hceil
  constructor
  · rw [percentileLowerIdx]
    omega
  · rw [percentileUpperIdx]
    omega

/-- Witness for `percentile_indices_in_bounds` on `[1, 2]` at `p = 1/2`. -/
theorem percentile_indices_in_bounds_witness :
    (percentileLowerIdx [(1 : ℚ), 2].length (1 / 2) ≤ [(1 : ℚ), 2].length - 1 ∧
     percentileUpperIdx [(1 : ℚ), 2].length (1 / 2) ≤ [(1 : ℚ), 2].length - 1) ∧
    percentile [] (1 / 2) = 0 :=
  ⟨(percentile_indices_in_bounds [1, 2] (1 / 2) (by norm_num) (by norm_num)).1
      (List.cons_ne_nil _ _),
   (percentile_indices_in_bounds [1, 2] (1 / 2) (by norm_num) (by norm_num)).2⟩

/-- The variance the non-empty branch of `from_measurements` stores is
exactly the spec's population variance of the end-to-end latencies
(sorting does not change sum, length, or the multiset of squared
deviations). -/
theorem from_measurements_variance (s : String) (ms : List LatencyMeasurement) (k : ℕ)
    (hlen : ms.length ≠ 0) :
    (ExperimentResults.from_measurements s ms k).jitter_variance_ms
      = popVariance (ms.map LatencyMeasurement.end_to_end_latency_ms) := by
  set L := ms.map LatencyMeasurement.end_to_end_latency_ms with hL
  set L' := List.insertionSort (· ≤ ·) L with hL'
  have hperm : List.Perm L' L := List.perm_insertionSort _ L
  have hLlen : L.length = ms.length := List.length_map _ _
  have hsum : L'.sum = L.sum := hperm.sum_eq
  simp only [ExperimentResults.from_measurements]
  rw [if_neg hlen]
  dsimp only
  rw [popVariance, meanOf]
  rw [← hL, ← hL', hsum, hLlen]
  have hmap := (hperm.map fun l =>
    (l - L.sum / (ms.length : ℚ)) * (l - L.sum / (ms.length : ℚ))).sum_eq
  rw [hmap]
  congr 1
  · simp [pow_two]

/-- C3: for every non-empty collection, the reported `jitter_stddev_ms`
is the population standard deviation of the end-to-end latencies around
their arithmetic mean (sum of squared deviations over `n`, not `n−1`);
in particular the jitter of a constant-valued collection is exactly 0. -/
theorem jitter_is_population_stddev :
    ∀ (s : String) (ms : List LatencyMeasurement) (k : ℕ), ms ≠ [] →
      (ExperimentResults.from_measurements s ms k).jitter_stddev_ms
          = popStddev (ms.map LatencyMeasurement.end_to_end_latency_ms) ∧
      ∀ c : ℚ, (∀ m ∈ ms, m.end_to_end_latency_ms = c) →
        (ExperimentResults.from_measurements s ms k).jitter_stddev_ms = 0 := by
  intro s ms k hne
  have hlen : ms.length ≠ 0 := fun h => hne (List.length_eq_zero.mp h)
  have hvar := from_measurements_variance s ms k hlen
  constructor
  · rw [ExperimentResults.jitter_stddev_ms, hvar, popStddev]
  · intro c hconst
    have hallL : ∀ x ∈ ms.map LatencyMeasurement.end_to_end_latency_ms, x = c := by
      intro x hx
      obtain ⟨m, hm, rfl⟩ := List.mem_map.mp hx
      exact hconst m hm
    have hzero : popVariance (ms.map LatencyMeasurement.end_to_end_latency_ms) = 0 := by
      rw [popVariance]
      have hall0 : ∀ y ∈ (ms.map LatencyMeasurement.end_to_end_latency_ms).map
          (fun x => (x - meanOf (ms.map LatencyMeasurement.end_to_end_latency_ms)) ^ 2),
          y = 0 := by
        intro y hy
        obtain ⟨x, hx, rfl⟩ := List.mem_map.mp hy
        have hxc := hallL x hx
        have hmean : meanOf (ms.map LatencyMeasurement.end_to_end_latency_ms) = c := by
          rw [meanOf]
          have hsum : (ms.map LatencyMeasurement.end_to_end_latency_ms).sum
              = ((ms.map LatencyMeasurement.end_to_end_latency_ms).length : ℚ) * c := by
            rw [List.sum_eq_card_nsmul _ c hallL]
            simp [nsmul_eq_mul]
          rw [hsum]
          have hLlen : (ms.map LatencyMeasurement.end_to_end_latency_ms).length = ms.length :=
            List.length_map _ _
          rw [hLlen]
          field_simp
        rw [hxc, hmean]
        ring
      rw [List.sum_eq_zero hall0, zero_div]
    rw [ExperimentResults.jitter_stddev_ms, hvar, hzero]
    simp

/-- Witness for `jitter_is_population_stddev` on the singleton collection
with end-to-end latency 2 ms. -/
theorem jitter_is_population_stddev_witness :
    (ExperimentResults.from_measurements "baseline"
        [LatencyMeasurement.new_baseline 0 0 2000000] 0).jitter_stddev_ms
      = popStddev ([LatencyMeasurement.new_baseline 0 0 2000000].map
          LatencyMeasurement.end_to_end_latency_ms) ∧
    (ExperimentResults.from_measurements "baseline"
        [LatencyMeasurement.new_baseline 0 0 2000000] 0).jitter_stddev_ms = 0 :=
  ⟨(jitter_is_population_stddev "baseline" [LatencyMeasurement.new_baseline 0 0 2000000] 0
      (List.cons_ne_nil _ _)).1,
   (jitter_is_population_stddev "baseline" [LatencyMeasurement.new_baseline 0 0 2000000] 0
      (List.cons_ne_nil _ _)).2 2 (by
        intro m hm
        rw [List.mem_singleton] at hm
        subst hm
        norm_num [LatencyMeasurement.new_baseline])⟩

/-- Evaluation of the two backbone fields in the non-empty branch of
`from_measurements`. -/
theorem from_measurements_backbone (s : String) (ms : List LatencyMeasurement) (k : ℕ)
    (hlen : ms.length ≠ 0) :
    (ExperimentResults.from_measurements s ms k).backbone_avg_latency_ms
        = (if ms.filterMap LatencyMeasurement.backbone_latency_ms ≠ [] then
            some ((List.insertionSort (· ≤ ·)
                  (ms.filterMap LatencyMeasurement.backbone_latency_ms)).sum
                / ((List.insertionSort (· ≤ ·)
                  (ms.filterMap LatencyMeasurement.backbone_latency_ms)).length : ℚ))
          else none) ∧
    (ExperimentResults.from_measurements s ms k).backbone_median_latency_ms
        = (if ms.filterMap LatencyMeasurement.backbone_latency_ms ≠ [] then
            some (percentile (List.insertionSort (· ≤ ·)
                  (ms.filterMap LatencyMeasurement.backbone_latency_ms)) (50 / 100))
          else none) := by
  simp only [ExperimentResults.from_measurements]
  rw [if_neg hlen]
  dsimp only
  constructor <;> (split_ifs with h <;> rfl)

/-- C6: the backbone mean and median are present in the summary if and
only if some measurement carries a backbone latency; when present they
are the arithmetic mean and the interpolated median of exactly that
subset, and when no measurement carries one both fields are `none`, not
zero. -/
theorem backbone_stats_present_iff :
    ∀ (s : String) (ms : List LatencyMeasurement) (k : ℕ),
      ((ExperimentResults.from_measurements s ms k).backbone_avg_latency_ms.isSome
          ↔ ∃ m ∈ ms, m.backbone_latency_ms.isSome) ∧
      ((ExperimentResults.from_measurements s ms k).backbone_median_latency_ms.isSome
          ↔ ∃ m ∈ ms, m.backbone_latency_ms.isSome) ∧
      (ms.filterMap LatencyMeasurement.backbone_latency_ms ≠ [] →
        (ExperimentResults.from_measurements s ms k).backbone_avg_latency_ms
            = some (meanOf (ms.filterMap LatencyMeasurement.backbone_latency_ms)) ∧
        (ExperimentResults.from_measurements s ms k).backbone_median_latency_ms
            = some (percentile
                (List.insertionSort (· ≤ ·)
                  (ms.filterMap LatencyMeasurement.backbone_latency_ms))
                (50 / 100))) ∧
      (ms.filterMap LatencyMeasurement.backbone_latency_ms = [] →
        (ExperimentResults.from_measurements s ms k).backbone_avg_latency_ms = none ∧
        (ExperimentResults.from_measurements s ms k).backbone_median_latency_ms = none) := by
  intro s ms k
  have hex : (ms.filterMap LatencyMeasurement.backbone_latency_ms ≠ [])
      ↔ ∃ m ∈ ms, m.backbone_latency_ms.isSome := by
    rw [ne_eq, List.filterMap_eq_nil_iff]
    push_neg
    constructor
    · rintro ⟨m, hm, hne⟩
      exact ⟨m, hm, Option.isSome_iff_ne_none.mpr hne⟩
    · rintro ⟨m, hm, hsome⟩
      exact ⟨m, hm, Option.isSome_iff_ne_none.mp hsome⟩
  by_cases hlen : ms.length = 0
  · have hms : ms = [] := List.length_eq_zero.mp hlen
    subst hms
    refine ⟨by simp [ExperimentResults.from_measurements],
      by simp [ExperimentResults.from_measurements], ?_, fun _ => ⟨rfl, rfl⟩⟩
    intro hbl
    exact absurd rfl hbl
  · obtain ⟨havg, hmed⟩ := from_measurements_backbone s ms k hlen
    by_cases hbl : ms.filterMap LatencyMeasurement.backbone_latency_ms = []
    · rw [havg, hmed, if_neg (fun hc => hc hbl), if_neg (fun hc => hc hbl)]
      refine ⟨?_, ?_, fun h => absurd hbl h, fun _ => ⟨rfl, rfl⟩⟩
      · simp only [Option.isSome_none, Bool.false_eq_true, false_iff]
        rw [← hex]
        exact fun h => h hbl
      · simp only [Option.isSome_none, Bool.false_eq_true, false_iff]
        rw [← hex]
        exact fun h => h hbl
    · have hperm := List.perm_insertionSort (· ≤ ·)
          (ms.filterMap LatencyMeasurement.backbone_latency_ms)
      have hsum := hperm.sum_eq
      have hlength := hperm.length_eq
      rw [havg, hmed, if_pos hbl, if_pos hbl]
      refine ⟨?_, ?_, fun _ => ⟨?_, rfl⟩, fun h => absurd h hbl⟩
      · simp only [Option.isSome_some, true_iff]
        exact hex.mp hbl
      · simp only [Option.isSome_some, true_iff]
        exact hex.mp hbl
      · rw [meanOf, hsum, hlength]

/-- Witness for `backbone_stats_present_iff` on a singleton relay-mode
measurement with backbone latency 2 ms. -/
theorem backbone_stats_present_iff_witness :
    (ExperimentResults.from_measurements "aws-backbone"
        [LatencyMeasurement.new_aws_backbone 0 0 1000000 3000000] 0).backbone_avg_latency_ms
      = some (meanOf ([LatencyMeasurement.new_aws_backbone 0 0 1000000 3000000].filterMap
          LatencyMeasurement.backbone_latency_ms)) ∧
    (ExperimentResults.from_measurements "aws-backbone"
        [LatencyMeasurement.new_aws_backbone 0 0 1000000 3000000] 0).backbone_median_latency_ms
      = some (percentile (List.insertionSort (· ≤ ·)
          ([LatencyMeasurement.new_aws_backbone 0 0 1000000 3000000].filterMap
            LatencyMeasurement.backbone_latency_ms)) (50 / 100)) :=
  (backbone_stats_present_iff "aws-backbone"
      [LatencyMeasurement.new_aws_backbone 0 0 1000000 3000000] 0).2.2.1
    (by simp [LatencyMeasurement.new_aws_backbone])


/-- Starting the forwarder loop at counter value `c`, the envelopes sent
carry exactly the consecutive sequence ids `c, c+1, ...`, one per
successfully parsed text message, and the counter ends at `c` plus the
number of parsed messages. -/
theorem runForwarder_ids (parse : String → Option BinanceBookTickerEvent)
    (c : ℕ) (msgs : List UpstreamMsg) :
    (runForwarder parse c msgs).1 = c + msgs.countP (isParsedText parse) ∧
    (runForwarder parse c msgs).2.map ForwardedEvent.sequence_id
      = List.range' c (msgs.countP (isParsedText parse)) := by
  induction msgs generalizing c with
  | nil => simp [runForwarder, List.range']
  | cons msg rest ih =>
    cases msg with
    | text payload ts =>
      cases hp : parse payload with
      | some ev =>
        obtain ⟨ih1, ih2⟩ := ih (c + 1)
        have hcount : (UpstreamMsg.text payload ts :: rest).countP (isParsedText parse)
            = rest.countP (isParsedText parse) + 1 := by
          rw [List.countP_cons]
          simp [isParsedText, hp]
        constructor
        · simp only [runForwarder, stepForwarder, hp, hcount]
          omega
        · simp only [runForwarder, stepForwarder, hp, hcount, Option.toList_some,
            List.cons_append, List.nil_append, List.map_cons, ih2]
          exact (List.range'_succ c (rest.countP (isParsedText parse)) 1).symm
      | none =>
        obtain ⟨ih1, ih2⟩ := ih c
        have hcount : (UpstreamMsg.text payload ts :: rest).countP (isParsedText parse)
            = rest.countP (isParsedText parse) := by
          rw [List.countP_cons]
          simp [isParsedText, hp]
        constructor
        · simp only [runForwarder, stepForwarder, hp, hcount, ih1]
        · simp only [runForwarder, stepForwarder, hp, hcount, Option.toList_none,
            List.nil_append, ih2]
    | close =>
      obtain ⟨ih1, ih2⟩ := ih c
      have hcount : (UpstreamMsg.close :: rest).countP (isParsedText parse)
          = rest.countP (isParsedText parse) := by
        rw [List.countP_cons]
        simp [isParsedText]
      exact ⟨by simp only [runForwarder, stepForwarder, hcount, ih1],
        by simp only [runForwarder, stepForwarder, hcount, Option.toList_none,
          List.nil_append, ih2]⟩
    | other =>
      obtain ⟨ih1, ih2⟩ := ih c
      have hcount : (UpstreamMsg.other :: rest).countP (isParsedText parse)
          = rest.countP (isParsedText parse) := by
        rw [List.countP_cons]
        simp [isParsedText]
      exact ⟨by simp only [runForwarder, stepForwarder, hcount, ih1],
        by simp only [runForwarder, stepForwarder, hcount, Option.toList_none,
          List.nil_append, ih2]⟩
    | wsError =>
      obtain ⟨ih1, ih2⟩ := ih c
      have hcount : (UpstreamMsg.wsError :: rest).countP (isParsedText parse)
          = rest.countP (isParsedText parse) := by
        rw [List.countP_cons]
        simp [isParsedText]
      exact ⟨by simp only [runForwarder, stepForwarder, hcount, ih1],
        by simp only [runForwarder, stepForwarder, hcount, Option.toList_none,
          List.nil_append, ih2]⟩

/-- Splitting a trace of inbound units: a later session continues from
the final counter of the earlier one and appends its output — the model
of `main`'s restart loop, which re-invokes `run_forwarder` with the same
shared `Arc<AtomicU64>` counter. -/
theorem runForwarder_append (parse : String → Option BinanceBookTickerEvent)
    (c : ℕ) (msgs₁ msgs₂ : List UpstreamMsg) :
    runForwarder parse c (msgs₁ ++ msgs₂)
      = ((runForwarder parse (runForwarder parse c msgs₁).1 msgs₂).1,
         (runForwarder parse c msgs₁).2
           ++ (runForwarder parse (runForwarder parse c msgs₁).1 msgs₂).2) := by
  induction msgs₁ generalizing c with
  | nil => simp [runForwarder]
  | cons msg rest ih =>
    simp only [List.cons_append, runForwarder]
    rw [List.append_eq, ih]
    simp [List.append_assoc]

/-- C7: the origin's sequence counter starts at 0
(src/tokyo-forwarder/src/main.rs line 115) and issues the gapless,
unique, strictly increasing ids `0, 1, 2, ...`, exactly one per
successfully parsed upstream message; a malformed message consumes no
sequence id and does not terminate the session (the loop continues
unchanged); and concatenating traces threads the counter through, so
reconnections and forwarder restarts within a process run never reset
it. -/
theorem sequence_counter_contract :
    (∀ (parse : String → Option BinanceBookTickerEvent) (msgs : List UpstreamMsg),
        (runForwarder parse 0 msgs).2.map ForwardedEvent.sequence_id
            = List.range (msgs.countP (isParsedText parse)) ∧
        (runForwarder parse 0 msgs).1 = msgs.countP (isParsedText parse)) ∧
    (∀ (parse : String → Option BinanceBookTickerEvent) (c : ℕ) (payload : String) (ts : ℤ),
        parse payload = none →
          stepForwarder parse c (.text payload ts) = (c, none) ∧
          ∀ rest, runForwarder parse c (.text payload ts :: rest) = runForwarder parse c rest) ∧
    (∀ (parse : String → Option BinanceBookTickerEvent) (c : ℕ)
        (msgs₁ msgs₂ : List UpstreamMsg),
        runForwarder parse c (msgs₁ ++ msgs₂)
          = ((runForwarder parse (runForwarder parse c msgs₁).1 msgs₂).1,
             (runForwarder parse c msgs₁).2
               ++ (runForwarder parse (runForwarder parse c msgs₁).1 msgs₂).2)) := by
  refine ⟨?_, ?_, runForwarder_append⟩
  · intro parse msgs
    obtain ⟨h1, h2⟩ := runForwarder_ids parse 0 msgs
    refine ⟨?_, by omega⟩
    rw [h2, List.range_eq_range']
  · intro parse c payload ts hp
    refine ⟨by simp [stepForwarder, hp], ?_⟩
    intro rest
    simp [runForwarder, stepForwarder, hp]

/-- Witness for `sequence_counter_contract` with the everywhere-failing
parse on a one-message trace. -/
theorem sequence_counter_contract_witness :
    ((runForwarder (fun _ => none) 0 [UpstreamMsg.text "x" 0]).2.map ForwardedEvent.sequence_id
        = List.range ([UpstreamMsg.text "x" 0].countP (isParsedText (fun _ => none)))) ∧
    stepForwarder (fun _ => none) 5 (.text "x" 0) = (5, none) :=
  ⟨(sequence_counter_contract.1 (fun _ => none) [UpstreamMsg.text "x" 0]).1,
   (sequence_counter_contract.2.1 (fun _ => none) 5 "x" 0 rfl).1⟩

/-- Consuming a literal prefix from input that starts with it succeeds
and returns the remainder. -/
theorem expectLit_append : ∀ (l s : List Char), expectLit l (l ++ s) = some s := by
  intro l
  induction l with
  | nil => intro s; rfl
  | cons c t ih => intro s; simp only [List.cons_append, expectLit, if_pos rfl]; exact ih s

/-- The accumulator of `natDigitsAux` is simply appended. -/
theorem natDigitsAux_append (n : ℕ) : ∀ (acc : List Char),
    natDigitsAux n acc = natDigitsAux n [] ++ acc := by
  induction n using Nat.strong_induction_on with
  | _ n ih =>
    intro acc
    by_cases h : n < 10
    · conv_lhs => rw [natDigitsAux]
      conv_rhs => rw [natDigitsAux]
      simp [h]
    · have hlt : n / 10 < n := Nat.div_lt_self (by omega) (by omega)
      conv_lhs => rw [natDigitsAux]
      conv_rhs => rw [natDigitsAux]
      rw [if_neg h, if_neg h]
      rw [ih (n / 10) hlt (digitChar (n % 10) :: acc), ih (n / 10) hlt [digitChar (n % 10)]]
      simp

/-- Decimal representation of a single-digit number. -/
theorem natDigits_small (n : ℕ) (h : n < 10) : natDigits n = [digitChar n] := by
  rw [natDigits, natDigitsAux, if_pos h]

/-- Decimal representation peels off the last digit. -/
theorem natDigits_step (n : ℕ) (h : ¬ n < 10) :
    natDigits n = natDigits (n / 10) ++ [digitChar (n % 10)] := by
  rw [natDigits, natDigitsAux, if_neg h, natDigitsAux_append]
  rfl

/-- A decimal representation is never empty. -/
theorem natDigits_ne_nil (n : ℕ) : natDigits n ≠ [] := by
  by_cases h : n < 10
  · rw [natDigits_small n h]
    exact List.cons_ne_nil _ _
  · rw [natDigits_step n h]
    simp

/-- Code point of `Char.ofNat` at a valid code point. -/
theorem char_toNat_ofNat (n : ℕ) (h : n.isValidChar) : (Char.ofNat n).toNat = n := by
  unfold Char.ofNat
  split
  · rfl
  · rename_i hn
    exact absurd h hn

/-- Code point of a decimal digit character. -/
theorem digitChar_toNat (n : ℕ) (h : n < 10) : (digitChar n).toNat = 48 + n := by
  rw [digitChar]
  exact char_toNat_ofNat (48 + n) (Or.inl (by omega))

/-- Decimal digit characters pass the digit test. -/
theorem isDigitChar_digitChar (n : ℕ) (h : n < 10) : isDigitChar (digitChar n) = true := by
  rw [isDigitChar, digitChar_toNat n h]
  simp only [Bool.and_eq_true, decide_eq_true_eq]
  omega

/-- Every character of a decimal representation is a digit. -/
theorem natDigits_all_digits (n : ℕ) : ∀ c ∈ natDigits n, isDigitChar c = true := by
  induction n using Nat.strong_induction_on with
  | _ n ih =>
    by_cases h : n < 10
    · rw [natDigits_small n h]
      intro c hc
      rw [List.mem_singleton] at hc
      subst hc
      exact isDigitChar_digitChar n h
    · rw [natDigits_step n h]
      intro c hc
      rw [List.mem_append] at hc
      rcases hc with hc | hc
      · exact ih (n / 10) (Nat.div_lt_self (by omega) (by omega)) c hc
      · rw [List.mem_singleton] at hc
        subst hc
        exact isDigitChar_digitChar (n % 10) (Nat.mod_lt _ (by omega))

/-- Splitting digits off a digit run followed by a non-digit recovers
both parts. -/
theorem takeDigits_append (d rest : List Char) (hd : ∀ c ∈ d, isDigitChar c = true)
    (hr : ∀ c, rest.head? = some c → isDigitChar c = false) :
    takeDigits (d ++ rest) = (d, rest) := by
  induction d with
  | nil =>
    cases rest with
    | nil => rfl
    | cons c t =>
      simp only [List.nil_append, takeDigits]
      rw [if_neg]
      rw [hr c rfl]
      simp
  | cons c d ih =>
    simp only [List.cons_append, takeDigits]
    rw [if_pos (hd c (List.mem_cons_self c d)), List.append_eq,
      ih fun x hx => hd x (List.mem_cons_of_mem c hx)]

/-- Value of a digit string extended by one digit. -/
theorem digitsVal_append_singleton (l : List Char) (c : Char) :
    digitsVal (l ++ [c]) = 10 * digitsVal l + (c.toNat - 48) := by
  rw [digitsVal, digitsVal, List.foldl_append]
  rfl

/-- Reading back the decimal representation recovers the number. -/
theorem digitsVal_natDigits (n : ℕ) : digitsVal (natDigits n) = n := by
  induction n using Nat.strong_induction_on with
  | _ n ih =>
    by_cases h : n < 10
    · rw [natDigits_small n h, digitsVal]
      simp only [List.foldl_cons, List.foldl_nil]
      rw [digitChar_toNat n h]
      omega
    · rw [natDigits_step n h, digitsVal_append_singleton,
        ih (n / 10) (Nat.div_lt_self (by omega) (by omega)),
        digitChar_toNat (n % 10) (Nat.mod_lt _ (by omega))]
      omega

/-- `readNat` inverts `natDigits` when the remainder starts with a
non-digit. -/
theorem readNat_append (n : ℕ) (rest : List Char)
    (hr : ∀ c, rest.head? = some c → isDigitChar c = false) :
    readNat (natDigits n ++ rest) = some (n, rest) := by
  rw [readNat, takeDigits_append (natDigits n) rest (natDigits_all_digits n) hr]
  simp only [if_neg (natDigits_ne_nil n), digitsVal_natDigits n]

/-- `readInt` inverts `intChars` when the remainder starts with a
non-digit. -/
theorem readInt_append (i : ℤ) (rest : List Char)
    (hr : ∀ c, rest.head? = some c → isDigitChar c = false) :
    readInt (intChars i ++ rest) = some (i, rest) := by
  obtain ⟨c, t, hct⟩ := List.exists_cons_of_ne_nil (natDigits_ne_nil (i.toNat))
  by_cases h : i < 0
  · obtain ⟨c', t', hct'⟩ := List.exists_cons_of_ne_nil (natDigits_ne_nil ((-i).toNat))
    rw [intChars, if_pos h, readInt]
    simp only [List.cons_append, List.head?_cons, List.tail_cons, if_pos rfl]
    rw [readNat_append ((-i).toNat) rest hr]
    simp only [Option.map_some']
    have : ((-i).toNat : ℤ) = -i := Int.toNat_of_nonneg (by omega)
    rw [this]
    simp
  · rw [intChars, if_neg h, readInt]
    have hhead : (natDigits i.toNat ++ rest).head? = some c := by
      rw [hct]
      rfl
    have hcdigit : isDigitChar c = true :=
      natDigits_all_digits i.toNat c (by rw [hct]; exact List.mem_cons_self c t)
    have hcne : c ≠ '-' := by
      intro hc
      subst hc
      rw [isDigitChar] at hcdigit
      simp at hcdigit
    rw [if_neg (by rw [hhead]; simp [hcne])]
    rw [readNat_append i.toNat rest hr]
    simp only [Option.map_some']
    have : (i.toNat : ℤ) = i := Int.toNat_of_nonneg (by omega)
    rw [this]

/-- `hexVal` inverts `hexDigitChar` on hex digit values. -/
theorem hexVal_hexDigitChar (n : ℕ) (h : n < 16) : hexVal (hexDigitChar n) = some n := by
  interval_cases n <;> decide

/-- A string body starting with the closing quote parses as empty. -/
theorem readStrBody_quote (rest : List Char) : readStrBody ('"' :: rest) = some ([], rest) := by
  rw [readStrBody.eq_def]
  simp

/-- Parsing an escaped quote. -/
theorem readStrBody_esc_quote (r : List Char) :
    readStrBody ('\\' :: '"' :: r) = consFst '"' (readStrBody r) := by
  rw [readStrBody.eq_def]
  simp

/-- Parsing an escaped backslash. -/
theorem readStrBody_esc_backslash (r : List Char) :
    readStrBody ('\\' :: '\\' :: r) = consFst '\\' (readStrBody r) := by
  rw [readStrBody.eq_def]
  simp

/-- Parsing an escaped backspace. -/
theorem readStrBody_esc_b (r : List Char) :
    readStrBody ('\\' :: 'b' :: r) = consFst '\x08' (readStrBody r) := by
  rw [readStrBody.eq_def]
  simp

/-- Parsing an escaped tab. -/
theorem readStrBody_esc_t (r : List Char) :
    readStrBody ('\\' :: 't' :: r) = consFst '\t' (readStrBody r) := by
  rw [readStrBody.eq_def]
  simp

/-- Parsing an escaped line feed. -/
theorem readStrBody_esc_n (r : List Char) :
    readStrBody ('\\' :: 'n' :: r) = consFst '\n' (readStrBody r) := by
  rw [readStrBody.eq_def]
  simp

/-- Parsing an escaped form feed. -/
theorem readStrBody_esc_f (r : List Char) :
    readStrBody ('\\' :: 'f' :: r) = consFst '\x0c' (readStrBody r) := by
  rw [readStrBody.eq_def]
  simp

/-- Parsing an escaped carriage return. -/
theorem readStrBody_esc_r (r : List Char) :
    readStrBody ('\\' :: 'r' :: r) = consFst '\r' (readStrBody r) := by
  rw [readStrBody.eq_def]
  simp

/-- Parsing a four-hex-digit unicode escape. -/
theorem readStrBody_esc_u (h1 h2 h3 h4 : Char) (a b x y : ℕ) (r2 : List Char)
    (ha : hexVal h1 = some a) (hb : hexVal h2 = some b)
    (hx : hexVal h3 = some x) (hy : hexVal h4 = some y) :
    readStrBody ('\\' :: 'u' :: h1 :: h2 :: h3 :: h4 :: r2)
      = consFst (Char.ofNat (4096 * a + 256 * b + 16 * x + y)) (readStrBody r2) := by
  rw [readStrBody.eq_def]
  simp [ha, hb, hx, hy]

/-- Parsing an unescaped character. -/
theorem readStrBody_plain (c : Char) (h1 : c ≠ '"') (h2 : c ≠ '\\') (rest : List Char) :
    readStrBody (c :: rest) = consFst c (readStrBody rest) := by
  rw [readStrBody.eq_def]
  simp [h1, h2]

/-- The string-body parser inverts `serde_json`'s escaping: reading an
escaped body followed by the closing quote recovers the original
characters verbatim and the rest of the input. -/
theorem readStrBody_escape (s : List Char) :
    ∀ rest, readStrBody (escapeString s ++ '"' :: rest) = some (s, rest) := by
  induction s with
  | nil =>
    intro rest
    rw [escapeString]
    simp only [List.map_nil, List.flatten_nil, List.nil_append]
    exact readStrBody_quote rest
  | cons c s ih =>
    intro rest
    rw [escapeString]
    simp only [List.map_cons, List.flatten_cons, List.append_assoc]
    rw [← escapeString]
    by_cases h1 : c = '"'
    · subst h1
      rw [escapeChar, if_pos rfl]
      simp only [List.cons_append, List.nil_append]
      rw [readStrBody_esc_quote, ih rest]
      rfl
    · by_cases h2 : c = '\\'
      · subst h2
        rw [escapeChar, if_neg (by decide), if_pos rfl]
        simp only [List.cons_append, List.nil_append]
        rw [readStrBody_esc_backslash, ih rest]
        rfl
      · by_cases h3 : c = '\x08'
        · subst h3
          rw [escapeChar, if_neg (by decide), if_neg (by decide), if_pos rfl]
          simp only [List.cons_append, List.nil_append]
          rw [readStrBody_esc_b, ih rest]
          rfl
        · by_cases h4 : c = '\t'
          · subst h4
            rw [escapeChar, if_neg (by decide), if_neg (by decide), if_neg (by decide),
              if_pos rfl]
            simp only [List.cons_append, List.nil_append]
            rw [readStrBody_esc_t, ih rest]
            rfl
          · by_cases h5 : c = '\n'
            · subst h5
              rw [escapeChar, if_neg (by decide), if_neg (by decide), if_neg (by decide),
                if_neg (by decide), if_pos rfl]
              simp only [List.cons_append, List.nil_append]
              rw [readStrBody_esc_n, ih rest]
              rfl
            · by_cases h6 : c = '\x0c'
              · subst h6
                rw [escapeChar, if_neg (by decide), if_neg (by decide), if_neg (by decide),
                  if_neg (by decide), if_neg (by decide), if_pos rfl]
                simp only [List.cons_append, List.nil_append]
                rw [readStrBody_esc_f, ih rest]
                rfl
              · by_cases h7 : c = '\r'
                · subst h7
                  rw [escapeChar, if_neg (by decide), if_neg (by decide), if_neg (by decide),
                    if_neg (by decide), if_neg (by decide), if_neg (by decide), if_pos rfl]
                  simp only [List.cons_append, List.nil_append]
                  rw [readStrBody_esc_r, ih rest]
                  rfl
                · by_cases h8 : c.toNat < 32
                  · rw [escapeChar, if_neg h1, if_neg h2, if_neg h3, if_neg h4, if_neg h5,
                      if_neg h6, if_neg h7, if_pos h8]
                    simp only [List.cons_append, List.nil_append]
                    rw [readStrBody_esc_u '0' '0' (hexDigitChar (c.toNat / 16))
                        (hexDigitChar (c.toNat % 16)) 0 0 (c.toNat / 16) (c.toNat % 16) _
                        (by decide) (by decide)
                        (hexVal_hexDigitChar (c.toNat / 16) (by omega))
                        (hexVal_hexDigitChar (c.toNat % 16) (by omega)),
                      ih rest]
                    have harith : 4096 * 0 + 256 * 0 + 16 * (c.toNat / 16) + c.toNat % 16
                        = c.toNat := by omega
                    rw [harith, Char.ofNat_toNat]
                    rfl
                  · rw [escapeChar, if_neg h1, if_neg h2, if_neg h3, if_neg h4, if_neg h5,
                      if_neg h6, if_neg h7, if_neg h8]
                    simp only [List.singleton_append]
                    rw [readStrBody_plain c h1 h2, ih rest]
                    rfl

/-- Input beginning with a fixed non-digit character starts with a
non-digit. -/
theorem head_append_cons_not_digit (c0 : Char) (h : isDigitChar c0 = false)
    (l r : List Char) :
    ∀ c, ((c0 :: l) ++ r).head? = some c → isDigitChar c = false := by
  intro c hc
  rw [List.cons_append, List.head?_cons] at hc
  cases hc
  exact h

/-- Parsing the canonical serialized form of the four fields (followed
by any all-whitespace trailer) recovers the original field values,
payload verbatim. -/
theorem fromJsonChars_canonical (seq : ℕ) (tok bin : ℤ) (payload : List Char)
    (tail : List Char) (htail : List.dropWhile isJsonWs tail = []) :
    ForwardedEvent.fromJsonChars?
        ("\x7b\"sequence_id\":".data ++ natDigits seq
          ++ ",\"tokyo_receive_timestamp\":".data ++ intChars tok
          ++ ",\"binance_event_time\":".data ++ intChars bin
          ++ ",\"event_data\":\"".data ++ escapeString payload
          ++ "\"\x7d".data ++ tail)
      = some { sequence_id := seq, tokyo_receive_timestamp := tok,
               binance_event_time := bin, event_data := String.mk payload } := by
  simp only [ForwardedEvent.fromJsonChars?, List.append_assoc]
  rw [show ∀ r : List Char,
      List.dropWhile isJsonWs ("\x7b\"sequence_id\":".data ++ r)
        = "\x7b\"sequence_id\":".data ++ r from fun _ => rfl]
  rw [expectLit_append]
  simp only [Option.bind_eq_bind, Option.some_bind]
  rw [readNat_append seq _ (head_append_cons_not_digit ',' (by decide) _ _)]
  simp only [Option.some_bind]
  rw [expectLit_append]
  simp only [Option.some_bind]
  rw [readInt_append tok _ (head_append_cons_not_digit ',' (by decide) _ _)]
  simp only [Option.some_bind]
  rw [expectLit_append]
  simp only [Option.some_bind]
  rw [readInt_append bin _ (head_append_cons_not_digit ',' (by decide) _ _)]
  simp only [Option.some_bind]
  rw [expectLit_append]
  simp only [Option.some_bind]
  rw [show (['\"', '\x7d'] : List Char) ++ tail = '\"' :: '\x7d' :: tail from rfl]
  rw [readStrBody_escape payload ('\x7d' :: tail)]
  simp only [Option.some_bind]
  rw [show expectLit ['\x7d'] ('\x7d' :: tail) = some tail from rfl]
  simp only [Option.some_bind]
  rw [if_pos htail]
  rfl

/-- C8: serializing a `ForwardedEvent` to its JSON wire form exactly as
the origin does (including the trailing newline of the framed wire form)
and parsing that text back as the destination does yields a record equal
field-for-field to the original, with the raw payload text verbatim. -/
theorem forwarded_event_roundtrip :
    ∀ e : ForwardedEvent,
      ForwardedEvent.fromJsonChars? e.toWireChars = some e ∧
      ForwardedEvent.fromJsonChars? e.toJsonChars = some e := by
  intro e
  rcases e with ⟨seq, tok, bin, ⟨payload⟩⟩
  constructor
  · exact fromJsonChars_canonical seq tok bin payload ['\n'] rfl
  · have h := fromJsonChars_canonical seq tok bin payload [] rfl
    rw [List.append_nil] at h
    exact h
